import Mathlib

/-!
# Catch2 `catch_stream.cpp`: the sink-backed stream buffer and the stream factory

A shallow embedding of `src/include/internal/catch_stream.cpp`.

* `Catch.StreamBufImpl` embeds the class template `detail::StreamBufImpl`,
  a `std::streambuf` whose put area is the fixed array `data` and whose
  flush action hands the accumulated bytes to the functor `m_writer`.
* `Catch.makeStream` embeds the factory of the same name together with the
  three `IStream` variants `CoutStream`, `DebugOutStream` and `FileStream`.

Pointers into `data` are natural-number offsets from the first element of
the array, so offset `0` is the start of the backing array.  A `char` is
modelled by its `unsigned char` value, a number below `256`; an `int` is a
Lean `Int`.  The members inherited from `std::streambuf` (`setp`, `sputc`,
`pbase`, `pptr`, `epptr`) follow the C++ standard, [streambuf.pub.put] and
[streambuf.put.area].
-/

namespace Catch

/-- The value of a `char`, read as `unsigned char`. -/
abbrev CChar := Fin 256

/-- The end-of-stream marker `EOF` of `<cstdio>`. -/
def EOF : Int := -1

/-- The conversion `static_cast<char>( c )` of an `int`: reduction modulo `2^8`. -/
def static_cast_char (c : Int) : CChar :=
  ⟨(c % 256).toNat, by omega⟩

/-- The conversion `traits_type::to_int_type( c )`: the `unsigned char` value as an `int`. -/
def to_int_type (c : CChar) : Int :=
  (c.val : Int)

/-- The class `detail::StreamBufImpl<WriterF, bufferSize>`.

`data` is the array `char data[bufferSize]`; `pbase`, `pptr` and `epptr`
are the three put-area pointers of the `std::streambuf` base, as offsets
into `data`; `m_writer` stands for the writer functor and records, in call
order, every string it has been called with. -/
structure StreamBufImpl where
  data : List CChar
  pbase : Nat
  pptr : Nat
  epptr : Nat
  m_writer : List (List CChar)
  deriving DecidableEq, Repr

namespace StreamBufImpl

/-- The call `setp( pbeg, pend )` of `std::streambuf`: `pbase` and `pptr`
become `pbeg`, `epptr` becomes `pend`. -/
def setp (s : StreamBufImpl) (pbeg pend : Nat) : StreamBufImpl :=
  { s with pbase := pbeg, pptr := pbeg, epptr := pend }

/-- The string `std::string( p, n )`: the `n` characters of `data` starting at offset `p`. -/
def string (s : StreamBufImpl) (p n : Nat) : List CChar :=
  (s.data.drop p).take n

/-- The call `m_writer( str )`: the writer receives one more string. -/
def call_writer (s : StreamBufImpl) (str : List CChar) : StreamBufImpl :=
  { s with m_writer := s.m_writer ++ [str] }

/-- The constructor `StreamBufImpl()`: `setp( data, data + sizeof(data) )`.
The array is not initialised by the constructor; its indeterminate contents
are the values `uninit 0, ..., uninit (bufferSize - 1)`.  No string has been
passed to the writer. -/
def new (bufferSize : Nat) (uninit : Nat → CChar) : StreamBufImpl :=
  setp { data := (List.range bufferSize).map uninit, pbase := 0, pptr := 0, epptr := 0,
         m_writer := [] } 0 (0 + bufferSize)

/-- The member `sync()`:
if `pbase() != pptr()` the characters from `pbase()` up to `pptr()` go to
the writer as one string and `setp( pbase(), epptr() )` empties the put
area; the result is `0`. -/
def sync (s : StreamBufImpl) : StreamBufImpl × Int :=
  if s.pbase ≠ s.pptr then
    let s1 := s.call_writer (s.string s.pbase (s.pptr - s.pbase))
    (s1.setp s1.pbase s1.epptr, 0)
  else
    (s, 0)

/-- The member `sputc( c )` of `std::streambuf`: when a write position is
available (`pptr() < epptr()`) the character is stored at `pptr()`, the
pointer advances and the result is `to_int_type( c )`; otherwise the result
is that of the virtual call `overflow( to_int_type( c ) )`, here the
argument `voverflow`. -/
def sputc_virtual (voverflow : StreamBufImpl → Int → Option (StreamBufImpl × Int))
    (s : StreamBufImpl) (c : CChar) : Option (StreamBufImpl × Int) :=
  if s.pptr < s.epptr then
    some ({ s with data := s.data.set s.pptr c, pptr := s.pptr + 1 }, to_int_type c)
  else
    voverflow s (to_int_type c)

/-- The member `overflow( c )`: `sync()`, then, for `c != EOF`, either the
writer receives the one-character string (when `pbase() == epptr()`) or
`sputc` stores the character; the result is `0`.  The first argument bounds
the number of `overflow` activations, this one included, that may be open
at the same time; `none` means the bound was reached. -/
def overflow : Nat → StreamBufImpl → Int → Option (StreamBufImpl × Int)
  | 0, _, _ => none
  | fuel + 1, s, c =>
    let s1 := (sync s).1
    if c ≠ EOF then
      if s1.pbase = s1.epptr then
        some (s1.call_writer [static_cast_char c], 0)
      else
        match sputc_virtual (overflow fuel) s1 (static_cast_char c) with
        | some (s2, _) => some (s2, 0)
        | none => none
    else
      some (s1, 0)

/-- The member `sputc( c )` on a `StreamBufImpl`: `sputc_virtual` with the
virtual call bound to `StreamBufImpl::overflow`. -/
def sputc (fuel : Nat) (s : StreamBufImpl) (c : CChar) : Option (StreamBufImpl × Int) :=
  sputc_virtual (overflow fuel) s c

/-- A state with two unflushed characters in an array of three, after one
earlier writer call. -/
def sample : StreamBufImpl :=
  { data := [104, 105, 0], pbase := 0, pptr := 2, epptr := 3, m_writer := [[33]] }

/-- The destructor `~StreamBufImpl()`: a call of `StreamBufImpl::sync()`. -/
def destroy (s : StreamBufImpl) : StreamBufImpl :=
  (sync s).1

/-- The characters held between `pbase()` and `pptr()`: the unflushed region. -/
def unflushed (s : StreamBufImpl) : List CChar :=
  s.string s.pbase (s.pptr - s.pbase)

/-- One call made on a buffer from outside: `sputc( c )`, `sync()`
(reached through `pubsync`) or `overflow( c )`. -/
inductive Call where
  | sputc (c : CChar)
  | sync
  | overflow (c : Int)
  deriving DecidableEq, Repr

/-- The effect of one call on the buffer. -/
def Call.apply (fuel : Nat) (s : StreamBufImpl) : Call → Option StreamBufImpl
  | .sputc c => (StreamBufImpl.sputc fuel s c).map Prod.fst
  | .sync => some (StreamBufImpl.sync s).1
  | .overflow c => (StreamBufImpl.overflow fuel s c).map Prod.fst

/-- The characters a call hands to the buffer: `sputc( c )` writes `c`,
`overflow( c )` writes `static_cast<char>( c )` unless `c` is `EOF`, and
`sync()` writes nothing. -/
def Call.chars : Call → List CChar
  | .sputc c => [c]
  | .sync => []
  | .overflow c => if c ≠ EOF then [static_cast_char c] else []

/-- The effect of a sequence of calls, made one after the other. -/
def run (fuel : Nat) : List Call → StreamBufImpl → Option StreamBufImpl
  | [], s => some s
  | op :: ops, s =>
    match op.apply fuel s with
    | some s1 => run fuel ops s1
    | none => none

/-- The characters written by a sequence of calls, in call order. -/
def written : List Call → List CChar
  | [] => []
  | op :: ops => op.chars ++ written ops

/-- The well-formedness of a buffer state: the put area starts at the start
of the backing array, ends at its end, and the write cursor lies inside it. -/
def Inv (s : StreamBufImpl) : Prop :=
  s.pbase = 0 ∧ s.pptr ≤ s.epptr ∧ s.epptr = s.data.length

instance (s : StreamBufImpl) : Decidable (Inv s) := by
  unfold Inv; infer_instance

/-- Everything the buffer has received and not lost: the strings passed to
the writer, concatenated in call order, followed by the unflushed region. -/
def content (s : StreamBufImpl) : List CChar :=
  s.m_writer.flatten ++ s.unflushed

/-- The state after `sputc` has stored `c` at the write cursor. -/
def stored (s : StreamBufImpl) (c : CChar) : StreamBufImpl :=
  { s with data := s.data.set s.pptr c, pptr := s.pptr + 1 }

end StreamBufImpl

/-! ### The stream factory -/

/-- A `StringRef`, by the characters it refers to. -/
abbrev StringRef := List Char

/-- The two failure kinds of the factory. -/
inductive ErrorKind where
  | UnrecognisedStream
  | FileOpenError
  deriving DecidableEq, Repr

deriving instance DecidableEq for Except

/-- The exception a failed enforcement throws: its kind and its message. -/
structure Exception where
  kind : ErrorKind
  what : List Char
  deriving DecidableEq, Repr

/-- Modelled from the spec: the macro `CATCH_ERROR( msg )` of `catch_enforce.h`,
which is not among the sources.  It fails the calling operation with an error
whose human-readable message is the streamed text `msg`; the kind is the
name the error taxonomy gives to the failure raised at the call site. -/
def CATCH_ERROR {α : Type} (kind : ErrorKind) (msg : List Char) : Except Exception α :=
  .error { kind := kind, what := msg }

/-- Modelled from the spec: the macro `CATCH_ENFORCE( condition, msg )` of
`catch_enforce.h`, which is not among the sources: `CATCH_ERROR( msg )`
unless `condition` holds. -/
def CATCH_ENFORCE (kind : ErrorKind) (condition : Bool) (msg : List Char) :
    Except Exception Unit :=
  if !condition then CATCH_ERROR kind msg else .ok ()

/-- The host environment of the factory: the stream buffer that
`Catch::cout()` currently has (by an identifying number), whether opening a
path for writing succeeds, and the indeterminate contents of fresh storage. -/
structure Host where
  cout_rdbuf : Nat
  open_ok : StringRef → Bool
  uninit : Nat → CChar

/-- A `std::ostream` on a stream buffer of the host: the buffer it writes to. -/
structure ostream where
  rdbuf : Nat
  deriving DecidableEq, Repr

/-- A `std::ofstream`: the path of the file it has open, if any, and its `failbit`. -/
structure ofstream where
  file : Option StringRef
  failbit : Bool
  deriving DecidableEq, Repr

/-- A default-constructed `std::ofstream`: no file, no error. -/
def ofstream.default : ofstream :=
  { file := none, failbit := false }

/-- The member `open( path )` of `std::ofstream`: on success the stream has
the file open, on failure `failbit` is set. -/
def ofstream.open (host : Host) (m : ofstream) (path : StringRef) : ofstream :=
  if host.open_ok path then { file := some path, failbit := false }
  else { m with failbit := true }

/-- The member `fail()` of `std::ofstream`. -/
def ofstream.fail (m : ofstream) : Bool :=
  m.failbit

/-- The three implementations of `IStream`, each with its data members.
`DebugOutStream` owns its `StreamBufImpl`, on which its `m_os` writes. -/
inductive IStream where
  | FileStream (m_ofs : ofstream)
  | CoutStream (m_os : ostream)
  | DebugOutStream (m_streamBuf : StreamBufImpl)
  deriving DecidableEq, Repr

/-- The result of a construction: the object or the exception thrown, and
the paths on which `std::ofstream::open` was called, in call order. -/
abbrev Construction := Except Exception IStream × List StringRef

/-- The constructor `FileStream( filename )`: `m_ofs.open( filename.c_str() )`,
then `CATCH_ENFORCE( !m_ofs.fail(), "Unable to open file: \x27" << filename << "\x27" )`. -/
def FileStream_new (host : Host) (filename : StringRef) : Construction :=
  let m_ofs := ofstream.open host ofstream.default filename
  match CATCH_ENFORCE .FileOpenError (!m_ofs.fail)
      ("Unable to open file: \x27".toList ++ filename ++ "\x27".toList) with
  | .error e => (.error e, [filename])
  | .ok _ => (.ok (.FileStream m_ofs), [filename])

/-- The constructor `CoutStream()`: `m_os( Catch::cout().rdbuf() )`. -/
def CoutStream_new (host : Host) : Construction :=
  (.ok (.CoutStream { rdbuf := host.cout_rdbuf }), [])

/-- The constructor `DebugOutStream()`: a new `StreamBufImpl<OutputDebugWriter>`
with the default `bufferSize` of `256`, and `m_os` on it. -/
def DebugOutStream_new (host : Host) : Construction :=
  (.ok (.DebugOutStream (StreamBufImpl.new 256 host.uninit)), [])

/-- The string literal `"%debug"`. -/
def debugName : StringRef := "%debug".toList

/-- The factory `makeStream( filename )`. -/
def makeStream (host : Host) (filename : StringRef) : Construction :=
  if filename.isEmpty then
    CoutStream_new host
  else if filename[0]? = some '%' then
    if filename = debugName then
      DebugOutStream_new host
    else
      (CATCH_ERROR .UnrecognisedStream
        ("Unrecognised stream: \x27".toList ++ filename ++ "\x27".toList), [])
  else
    FileStream_new host filename

/-- A host in which no path can be opened. -/
def closedHost : Host :=
  { cout_rdbuf := 1, open_ok := fun _ => false, uninit := fun _ => 0 }

/-- A host in which every path can be opened. -/
def openHost : Host :=
  { cout_rdbuf := 1, open_ok := fun _ => true, uninit := fun _ => 0 }

/-- The stream buffer an output stream writes to: a stream buffer of the
host, by its identifying number, the `StreamBufImpl` of a `DebugOutStream`,
or the file buffer of a `std::ofstream`. -/
inductive StreamBufRef where
  | host (rdbuf : Nat)
  | impl (buf : StreamBufImpl)
  | file (m_ofs : ofstream)
  deriving DecidableEq, Repr

/-- The member `stream()` of the three variants, called while the host
environment is `now`: `FileStream` returns `m_ofs`, `CoutStream` and
`DebugOutStream` return `m_os`.  The result is given by the stream buffer
the returned stream writes to; no variant consults the host. -/
def IStream.stream (_now : Host) : IStream → StreamBufRef
  | .FileStream m_ofs => .file m_ofs
  | .CoutStream m_os => .host m_os.rdbuf
  | .DebugOutStream m_streamBuf => .impl m_streamBuf

/-- The call `Catch::cout().rdbuf( sb )`: the standard-output stream is
redirected to the stream buffer `sb`. -/
def Host.set_rdbuf (host : Host) (sb : Nat) : Host :=
  { host with cout_rdbuf := sb }

/-- A well-formed state of capacity zero: the array is empty and the three
pointers coincide; the writer has been called once before. -/
def sampleZero : StreamBufImpl :=
  { data := [], pbase := 0, pptr := 0, epptr := 0, m_writer := [[33]] }

/-- The one-character strings of a text, in order. -/
def singletons (cs : List CChar) : List (List CChar) :=
  cs.map (fun c => [c])

namespace StreamBufImpl

/-! ### Auxiliary facts -/

theorem inv_new (bufferSize : Nat) (uninit : Nat → CChar) : Inv (new bufferSize uninit) := by
  simp [Inv, new, setp]

theorem content_new (bufferSize : Nat) (uninit : Nat → CChar) :
    content (new bufferSize uninit) = [] := by
  simp [content, unflushed, string, new, setp]

theorem sync_eq_of_ne (s : StreamBufImpl) (h : s.pbase ≠ s.pptr) :
    (sync s).1 = { s with pptr := s.pbase, m_writer := s.m_writer ++ [s.unflushed] } := by
  simp [sync, h, setp, call_writer, unflushed]

theorem sync_eq_of_eq (s : StreamBufImpl) (h : s.pbase = s.pptr) : (sync s).1 = s := by
  simp [sync, h]

theorem sync_pbase (s : StreamBufImpl) : (sync s).1.pbase = s.pbase := by
  by_cases h : s.pbase = s.pptr
  · rw [sync_eq_of_eq s h]
  · rw [sync_eq_of_ne s h]

theorem sync_epptr (s : StreamBufImpl) : (sync s).1.epptr = s.epptr := by
  by_cases h : s.pbase = s.pptr
  · rw [sync_eq_of_eq s h]
  · rw [sync_eq_of_ne s h]

theorem sync_data (s : StreamBufImpl) : (sync s).1.data = s.data := by
  by_cases h : s.pbase = s.pptr
  · rw [sync_eq_of_eq s h]
  · rw [sync_eq_of_ne s h]

theorem sync_pptr (s : StreamBufImpl) : (sync s).1.pptr = s.pbase := by
  by_cases h : s.pbase = s.pptr
  · rw [sync_eq_of_eq s h]; exact h.symm
  · rw [sync_eq_of_ne s h]

theorem unflushed_sync (s : StreamBufImpl) : (sync s).1.unflushed = [] := by
  simp [unflushed, string, sync_pptr, sync_pbase]

theorem flatten_sync (s : StreamBufImpl) :
    (sync s).1.m_writer.flatten = content s := by
  by_cases h : s.pbase = s.pptr
  · rw [sync_eq_of_eq s h]
    simp [content, unflushed, string, h]
  · rw [sync_eq_of_ne s h]
    simp [content]

theorem content_sync (s : StreamBufImpl) : content (sync s).1 = content s := by
  rw [content, unflushed_sync, flatten_sync, List.append_nil]

theorem inv_sync (s : StreamBufImpl) (h : Inv s) : Inv (sync s).1 := by
  obtain ⟨h0, _, h2⟩ := h
  refine ⟨?_, ?_, ?_⟩
  · rw [sync_pbase, h0]
  · rw [sync_pptr, sync_epptr, h0]; exact Nat.zero_le _
  · rw [sync_epptr, sync_data, h2]

theorem sputc_of_lt (fuel : Nat) (s : StreamBufImpl) (c : CChar) (h : s.pptr < s.epptr) :
    sputc fuel s c = some (stored s c, to_int_type c) := by
  simp [sputc, sputc_virtual, h, stored]

theorem sputc_of_not_lt (fuel : Nat) (s : StreamBufImpl) (c : CChar) (h : ¬ s.pptr < s.epptr) :
    sputc fuel s c = overflow fuel s (to_int_type c) := by
  simp [sputc, sputc_virtual, h]

theorem unflushed_stored (s : StreamBufImpl) (c : CChar) (h : Inv s) (hlt : s.pptr < s.epptr) :
    (stored s c).unflushed = s.unflushed ++ [c] := by
  obtain ⟨h0, _, h2⟩ := h
  have hlen : s.pptr < s.data.length := by omega
  simp only [unflushed, string, stored, h0, List.drop_zero, Nat.sub_zero]
  rw [List.take_succ]
  have h1 : List.take s.pptr (s.data.set s.pptr c) = List.take s.pptr s.data := by
    rw [List.set_take, List.set_eq_of_length_le]
    simp
  simp [h1, hlen]

theorem inv_stored (s : StreamBufImpl) (c : CChar) (h : Inv s) (hlt : s.pptr < s.epptr) :
    Inv (stored s c) := by
  obtain ⟨h0, _, h2⟩ := h
  refine ⟨h0, ?_, ?_⟩
  · show s.pptr + 1 ≤ s.epptr
    omega
  · show s.epptr = (s.data.set s.pptr c).length
    rw [List.length_set]; exact h2

theorem content_stored (s : StreamBufImpl) (c : CChar) (h : Inv s) (hlt : s.pptr < s.epptr) :
    content (stored s c) = content s ++ [c] := by
  rw [content, unflushed_stored s c h hlt, content, List.append_assoc]
  rfl

theorem static_cast_to_int (c : CChar) : static_cast_char (to_int_type c) = c := by
  apply Fin.ext
  have := c.isLt
  simp only [static_cast_char, to_int_type]
  omega

theorem to_int_ne_EOF (c : CChar) : to_int_type c ≠ EOF := by
  simp only [to_int_type, EOF]
  omega

/-- On a well-formed state `overflow` returns with one activation: after
`sync()` either the capacity is zero and the writer receives the character,
or `sputc` stores it in the emptied put area. -/
theorem overflow_of_inv (fuel : Nat) (s : StreamBufImpl) (c : Int) (h : Inv s) :
    overflow (fuel + 1) s c = some
      (if c ≠ EOF then
        if s.pbase = s.epptr then (sync s).1.call_writer [static_cast_char c]
        else stored (sync s).1 (static_cast_char c)
      else (sync s).1, 0) := by
  obtain ⟨h0, h1, h2⟩ := h
  by_cases hc : c = EOF
  · simp [overflow, hc]
  · by_cases hz : s.pbase = s.epptr
    · simp [overflow, hc, hz, sync_pbase, sync_epptr]
    · have hlt : (sync s).1.pptr < (sync s).1.epptr := by
        rw [sync_pptr, sync_epptr]; omega
      rw [sync_epptr] at hlt
      simp [overflow, hc, hz, sync_pbase, sync_epptr, sputc_virtual, hlt, stored]

theorem content_call_writer (s : StreamBufImpl) (str : List CChar) (h : s.unflushed = []) :
    content (s.call_writer str) = content s ++ str := by
  have h' : (s.call_writer str).unflushed = [] := h
  rw [content, content, h, h']
  simp [call_writer]

theorem inv_call_writer (s : StreamBufImpl) (str : List CChar) (h : Inv s) :
    Inv (s.call_writer str) := h

/-- One `overflow` call on a well-formed state returns `0`, keeps the state
well formed and adds exactly the character it was given, if any. -/
theorem overflow_step (fuel : Nat) (s : StreamBufImpl) (c : Int) (h : Inv s) :
    ∃ s1, overflow (fuel + 1) s c = some (s1, 0) ∧ Inv s1 ∧
      content s1 = content s ++ (Call.overflow c).chars ∧ s1.data.length = s.data.length := by
  refine ⟨_, overflow_of_inv fuel s c h, ?_⟩
  have hs := inv_sync s h
  by_cases hc : c = EOF
  · simp [hc, Call.chars, hs, content_sync, sync_data]
  · by_cases hz : s.pbase = s.epptr
    · simp only [hc, hz, Call.chars, ne_eq, not_false_eq_true, if_true]
      refine ⟨inv_call_writer _ _ hs, ?_, ?_⟩
      · rw [content_call_writer _ _ (unflushed_sync s), content_sync]
      · show (sync s).1.data.length = _
        rw [sync_data]
    · have hlt : (sync s).1.pptr < (sync s).1.epptr := by
        rw [sync_pptr, sync_epptr]
        obtain ⟨h0, h1, _⟩ := h
        omega
      simp only [hc, hz, Call.chars, ne_eq, not_false_eq_true, if_true, if_false]
      refine ⟨inv_stored _ _ hs hlt, ?_, ?_⟩
      · rw [content_stored _ _ hs hlt, content_sync]
      · show ((sync s).1.data.set _ _).length = _
        rw [List.length_set, sync_data]

/-- One call on a well-formed state returns, keeps the state well formed and
adds exactly the characters of the call to what the buffer has received. -/
theorem apply_step (fuel : Nat) (s : StreamBufImpl) (op : Call) (h : Inv s) :
    ∃ s1, op.apply (fuel + 1) s = some s1 ∧ Inv s1 ∧
      content s1 = content s ++ op.chars ∧ s1.data.length = s.data.length := by
  cases op with
  | sputc c =>
    by_cases hlt : s.pptr < s.epptr
    · refine ⟨stored s c, by simp [Call.apply, sputc_of_lt _ _ _ hlt], inv_stored s c h hlt,
        content_stored s c h hlt, ?_⟩
      show (s.data.set _ _).length = _
      rw [List.length_set]
    · obtain ⟨s1, h1, h2, h3, h4⟩ := overflow_step fuel s (to_int_type c) h
      refine ⟨s1, by simp [Call.apply, sputc_of_not_lt _ _ _ hlt, h1], h2, ?_, h4⟩
      rw [h3]
      simp [Call.chars, to_int_ne_EOF, static_cast_to_int]
  | sync =>
    exact ⟨(sync s).1, rfl, inv_sync s h, by simp [content_sync, Call.chars], by rw [sync_data]⟩
  | overflow c =>
    obtain ⟨s1, h1, h2, h3, h4⟩ := overflow_step fuel s c h
    exact ⟨s1, by simp [Call.apply, h1], h2, h3, h4⟩

/-- A sequence of calls on a well-formed state returns, keeps the state well
formed and adds exactly the characters written to what the buffer has received. -/
theorem run_step (fuel : Nat) (ops : List Call) (s : StreamBufImpl) (h : Inv s) :
    ∃ s1, run (fuel + 1) ops s = some s1 ∧ Inv s1 ∧
      content s1 = content s ++ written ops ∧ s1.data.length = s.data.length := by
  induction ops generalizing s with
  | nil => exact ⟨s, rfl, h, by simp [written], rfl⟩
  | cons op ops ih =>
    obtain ⟨s1, h1, h2, h3, h4⟩ := apply_step fuel s op h
    obtain ⟨s2, k1, k2, k3, k4⟩ := ih s1 h2
    refine ⟨s2, by simp [run, h1, k1], k2, ?_, by rw [k4, h4]⟩
    rw [k3, h3, written, List.append_assoc]

theorem run_append (fuel : Nat) (ops1 ops2 : List Call) (s : StreamBufImpl) :
    run fuel (ops1 ++ ops2) s = (run fuel ops1 s).bind (run fuel ops2) := by
  induction ops1 generalizing s with
  | nil => rfl
  | cons op ops ih =>
    simp only [List.cons_append, run]
    cases op.apply fuel s with
    | none => rfl
    | some s1 => exact ih s1

/-- Characters stored while free space lasts: no writer call, the unflushed
region grows by exactly the characters. -/
theorem run_sputc_free (fuel : Nat) (cs : List CChar) (s : StreamBufImpl) (h : Inv s)
    (hfree : s.pptr + cs.length ≤ s.epptr) :
    ∃ s1, run fuel (cs.map Call.sputc) s = some s1 ∧ Inv s1 ∧ s1.m_writer = s.m_writer ∧
      s1.unflushed = s.unflushed ++ cs ∧ s1.pptr = s.pptr + cs.length ∧
      s1.epptr = s.epptr := by
  induction cs generalizing s with
  | nil => exact ⟨s, rfl, h, rfl, by simp, rfl, rfl⟩
  | cons c cs ih =>
    have hlt : s.pptr < s.epptr := by simp at hfree; omega
    have hfree1 : (stored s c).pptr + cs.length ≤ (stored s c).epptr := by
      show s.pptr + 1 + cs.length ≤ s.epptr
      simp at hfree; omega
    obtain ⟨s1, h1, h2, h3, h4, h5, h6⟩ := ih (stored s c) (inv_stored s c h hlt) hfree1
    refine ⟨s1, by simp [run, Call.apply, sputc_of_lt _ _ _ hlt, h1], h2, h3, ?_, ?_, h6⟩
    · rw [h4, unflushed_stored s c h hlt]; simp
    · rw [h5]; show s.pptr + 1 + cs.length = _
      simp; omega

end StreamBufImpl

open StreamBufImpl

/-! ### The sink-backed buffer: properties -/

/-- C1. No loss, no duplication, order preserved: for every capacity, every
initial contents of the array and every finite sequence of `sputc`, `sync`
and `overflow` calls on a freshly constructed buffer, the calls return, and
the strings passed to the writer so far, concatenated in call order and
followed by the characters between `pbase` and `pptr`, are exactly the
characters written so far. -/
theorem no_loss_no_duplication (bufferSize : Nat) (uninit : Nat → CChar) (ops : List Call)
    (fuel : Nat) :
    ∃ s, run (fuel + 1) ops (new bufferSize uninit) = some s ∧
      s.m_writer.flatten ++ s.unflushed = written ops := by
  obtain ⟨s, h1, _, h3, _⟩ := run_step fuel ops _ (inv_new bufferSize uninit)
  refine ⟨s, h1, ?_⟩
  rw [content_new, List.nil_append] at h3
  exact h3

/-- C2. Final flush at destruction: when `N` characters with
`0 < N < bufferSize` are written to a fresh buffer, the writer has not been
called before the destructor runs and has been called exactly once after it,
with exactly those characters; and after any sequence of calls followed by
the destructor the strings passed to the writer, concatenated, are all the
characters ever written. -/
theorem final_flush_at_destruction (bufferSize : Nat) (uninit : Nat → CChar) (fuel : Nat) :
    (∀ cs : List CChar, 0 < cs.length → cs.length < bufferSize →
      ∃ s, run fuel (cs.map Call.sputc) (new bufferSize uninit) = some s ∧
        s.m_writer = [] ∧ (destroy s).m_writer = [cs]) ∧
    (∀ ops : List Call,
      ∃ s, run (fuel + 1) ops (new bufferSize uninit) = some s ∧
        (destroy s).m_writer.flatten = written ops) := by
  constructor
  · intro cs hpos hlt
    have hfree : (new bufferSize uninit).pptr + cs.length ≤ (new bufferSize uninit).epptr := by
      simp only [new, setp]; omega
    obtain ⟨s, h1, h2, h3, h4, h5, _⟩ :=
      run_sputc_free fuel cs _ (inv_new bufferSize uninit) hfree
    have hu : (new bufferSize uninit).unflushed = [] := by
      simp [unflushed, string, new, setp]
    rw [hu, List.nil_append] at h4
    have hw : (new bufferSize uninit).m_writer = [] := rfl
    rw [hw] at h3
    have hne : s.pbase ≠ s.pptr := by
      have hp : (new bufferSize uninit).pptr = 0 := rfl
      rw [h5, hp, h2.1]; omega
    refine ⟨s, h1, h3, ?_⟩
    rw [destroy, sync_eq_of_ne s hne]
    simp [h3, h4]
  · intro ops
    obtain ⟨s, h1, _, h3, _⟩ := run_step fuel ops _ (inv_new bufferSize uninit)
    refine ⟨s, h1, ?_⟩
    rw [destroy, flatten_sync, h3, content_new, List.nil_append]

/-- A concrete instance of C2: three characters in a buffer of four. -/
theorem final_flush_at_destruction_witness :
    0 < [(104 : CChar), 105, 33].length ∧ [(104 : CChar), 105, 33].length < 4 ∧
    ∃ s, run 1 ([(104 : CChar), 105, 33].map Call.sputc) (new 4 (fun _ => 0)) = some s ∧
      s.m_writer = [] ∧ (destroy s).m_writer = [[104, 105, 33]] :=
  ⟨by decide, by decide,
    (final_flush_at_destruction 4 (fun _ => 0) 1).1 [104, 105, 33] (by decide) (by decide)⟩

/-- C3. The contract of `sync` on a well-formed state (every state reached
from construction is one): with a non-empty unflushed region the writer
receives exactly one more string, the whole unflushed region, the write
cursor is back at the start of the backing array and `pbase`, `epptr` and
the array are unchanged; with an empty unflushed region the state, the
writer included, is unchanged.  The result is `0` in both cases. -/
theorem sync_contract (s : StreamBufImpl) (h : Inv s) :
    (s.pbase ≠ s.pptr →
      (sync s).1.m_writer = s.m_writer ++ [s.unflushed] ∧ (sync s).1.pptr = 0 ∧
      (sync s).1.pbase = s.pbase ∧ (sync s).1.epptr = s.epptr ∧ (sync s).1.data = s.data ∧
      (sync s).1.unflushed = []) ∧
    (s.pbase = s.pptr → (sync s).1 = s) ∧
    (sync s).2 = 0 := by
  refine ⟨fun hne => ?_, fun heq => sync_eq_of_eq s heq, ?_⟩
  · refine ⟨?_, ?_, sync_pbase s, sync_epptr s, sync_data s, unflushed_sync s⟩
    · rw [sync_eq_of_ne s hne]
    · rw [sync_pptr, h.1]
  · unfold sync; split <;> rfl

/-- A concrete instance of C3: two unflushed characters in a buffer of three. -/
theorem sync_contract_witness :
    Inv sample ∧ sample.pbase ≠ sample.pptr ∧
    (sync sample).1.m_writer = sample.m_writer ++ [sample.unflushed] ∧
    (sync sample).1.pptr = 0 ∧ (sync sample).1.pbase = sample.pbase ∧
    (sync sample).1.epptr = sample.epptr ∧ (sync sample).1.data = sample.data ∧
    (sync sample).1.unflushed = [] :=
  ⟨by decide, by decide, (sync_contract sample (by decide)).1 (by decide)⟩

/-- C4. The contract of `overflow` on a well-formed state of non-zero
capacity.  For `c` other than `EOF` the call returns `0`, the writer has
received exactly what `sync` alone passes to it, and the buffer is the
flushed buffer in which `sputc` has stored `static_cast<char>( c )`: the
unflushed region is that one character.  For `EOF` the call returns `0` and
the state, the writer included, is that of `sync` alone.  For `c` in the range
of a character the conversion yields `c` itself. -/
theorem overflow_contract (fuel : Nat) (s : StreamBufImpl) (c : Int) (h : Inv s)
    (hcap : s.pbase ≠ s.epptr) :
    (c ≠ EOF → ∃ s1, overflow (fuel + 1) s c = some (s1, 0) ∧
      s1 = stored (sync s).1 (static_cast_char c) ∧
      s1.m_writer = (sync s).1.m_writer ∧ s1.unflushed = [static_cast_char c] ∧
      s1.pbase = s.pbase ∧ s1.epptr = s.epptr ∧ s1.pptr = s.pbase + 1) ∧
    overflow (fuel + 1) s EOF = some ((sync s).1, 0) ∧
    (0 ≤ c → c < 256 → ((static_cast_char c).val : Int) = c) := by
  refine ⟨fun hc => ?_, ?_, fun h0 h1 => ?_⟩
  · have hs := inv_sync s h
    have hlt : (sync s).1.pptr < (sync s).1.epptr := by
      rw [sync_pptr, sync_epptr]
      obtain ⟨h0, h1, _⟩ := h
      omega
    refine ⟨_, by rw [overflow_of_inv fuel s c h]; simp [hc, hcap], rfl, rfl, ?_,
      sync_pbase s, sync_epptr s, ?_⟩
    · rw [unflushed_stored _ _ hs hlt, unflushed_sync, List.nil_append]
    · show (sync s).1.pptr + 1 = _
      rw [sync_pptr]
  · rw [overflow_of_inv fuel s EOF h]; simp
  · simp only [static_cast_char]
    omega

/-- A concrete instance of C4: `overflow( 65 )` on the sample state. -/
theorem overflow_contract_witness :
    Inv sample ∧ sample.pbase ≠ sample.epptr ∧ (65 : Int) ≠ EOF ∧
    ∃ s1, overflow 1 sample 65 = some (s1, 0) ∧
      s1 = stored (sync sample).1 (static_cast_char 65) ∧
      s1.m_writer = (sync sample).1.m_writer ∧ s1.unflushed = [static_cast_char 65] ∧
      s1.pbase = sample.pbase ∧ s1.epptr = sample.epptr ∧ s1.pptr = sample.pbase + 1 :=
  ⟨by decide, by decide, by decide,
    (overflow_contract 0 sample 65 (by decide) (by decide)).1 (by decide)⟩

/-- C5, as it fails for capacity zero: one character written to a fresh
buffer of capacity zero goes to the writer at once, as the string of that
one character, and the unflushed region stays empty; the writer has not
received the empty string of the first zero characters, and the character is
not held as unflushed data. -/
theorem boundary_at_capacity_counterexample :
    (([] : List CChar).length = 0) ∧
    (run 1 (([] : List CChar).map Call.sputc ++ [Call.sputc 98]) (new 0 (fun _ => 0))).map
      (fun s => (s.m_writer, s.unflushed)) = some ([[98]], []) ∧
    ¬ (∃ s, run 1 (([] : List CChar).map Call.sputc ++ [Call.sputc 98]) (new 0 (fun _ => 0))
        = some s ∧ s.m_writer = [[]] ∧ s.unflushed = [98]) := by
  have hrun : (run 1 (([] : List CChar).map Call.sputc ++ [Call.sputc 98])
      (new 0 (fun _ => 0))).map (fun s => (s.m_writer, s.unflushed)) = some ([[98]], []) := by
    decide
  refine ⟨rfl, hrun, ?_⟩
  rintro ⟨s, h1, h2, h3⟩
  rw [h1, Option.map_some', h2, h3] at hrun
  exact absurd hrun (by decide)

/-- C5, amended. Boundary at capacity, for a capacity other than zero:
writing exactly `bufferSize` characters to a fresh buffer and then one more
character `b` calls the writer exactly once, with the first `bufferSize`
characters as one string, and leaves exactly `b` unflushed. -/
theorem boundary_at_capacity (bufferSize : Nat) (uninit : Nat → CChar) (cs : List CChar)
    (b : CChar) (fuel : Nat) (hcap : 0 < bufferSize) (hlen : cs.length = bufferSize) :
    ∃ s, run (fuel + 1) (cs.map Call.sputc ++ [Call.sputc b]) (new bufferSize uninit) = some s ∧
      s.m_writer = [cs] ∧ s.unflushed = [b] := by
  have hfree : (new bufferSize uninit).pptr + cs.length ≤ (new bufferSize uninit).epptr := by
    simp only [new, setp]; omega
  obtain ⟨s1, h1, h2, h3, h4, h5, h6⟩ :=
    run_sputc_free (fuel + 1) cs _ (inv_new bufferSize uninit) hfree
  have hu : (new bufferSize uninit).unflushed = [] := by
    simp [unflushed, string, new, setp]
  have hw : (new bufferSize uninit).m_writer = [] := rfl
  have hp : (new bufferSize uninit).pptr = 0 := rfl
  rw [hu, List.nil_append] at h4
  rw [hw] at h3
  rw [hp, Nat.zero_add] at h5
  have he : (new bufferSize uninit).epptr = 0 + bufferSize := rfl
  rw [he, Nat.zero_add] at h6
  obtain ⟨k0, k1, k2⟩ := h2
  have hfull : ¬ s1.pptr < s1.epptr := by omega
  have hne : s1.pbase ≠ s1.pptr := by omega
  have hnz : s1.pbase ≠ s1.epptr := by omega
  have hs := inv_sync s1 ⟨k0, k1, k2⟩
  have hlt : (sync s1).1.pptr < (sync s1).1.epptr := by
    rw [sync_pptr, sync_epptr]; omega
  refine ⟨stored (sync s1).1 b, ?_, ?_, ?_⟩
  · rw [run_append, h1]
    simp [run, Call.apply, sputc_of_not_lt _ _ _ hfull, overflow_of_inv fuel s1 _ ⟨k0, k1, k2⟩,
      to_int_ne_EOF, hnz, static_cast_to_int]
  · show (sync s1).1.m_writer = [cs]
    rw [sync_eq_of_ne s1 hne]
    simp [h3, h4]
  · rw [unflushed_stored _ _ hs hlt, unflushed_sync, List.nil_append]

/-- A concrete instance of C5, amended: capacity two, characters `h`, `i`, then `!`. -/
theorem boundary_at_capacity_witness :
    0 < 2 ∧ [(104 : CChar), 105].length = 2 ∧
    ∃ s, run 1 ([(104 : CChar), 105].map Call.sputc ++ [Call.sputc 33]) (new 2 (fun _ => 0))
        = some s ∧ s.m_writer = [[104, 105]] ∧ s.unflushed = [33] :=
  ⟨by decide, by decide,
    boundary_at_capacity 2 (fun _ => 0) [104, 105] 33 0 (by decide) (by decide)⟩

/-- C6. No emission below capacity: when a text shorter than `bufferSize` is
written character by character to a fresh buffer, every `sputc` returns
without calling `overflow`, the writer has not been called and the unflushed
region is exactly that text. -/
theorem no_emission_below_capacity (bufferSize : Nat) (uninit : Nat → CChar)
    (cs : List CChar) (fuel : Nat) (h : cs.length < bufferSize) :
    ∃ s, run fuel (cs.map Call.sputc) (new bufferSize uninit) = some s ∧
      s.m_writer = [] ∧ s.unflushed = cs := by
  have hfree : (new bufferSize uninit).pptr + cs.length ≤ (new bufferSize uninit).epptr := by
    simp only [new, setp]; omega
  obtain ⟨s, h1, _, h3, h4, _, _⟩ := run_sputc_free fuel cs _ (inv_new bufferSize uninit) hfree
  have hu : (new bufferSize uninit).unflushed = [] := by
    simp [unflushed, string, new, setp]
  rw [hu, List.nil_append] at h4
  exact ⟨s, h1, h3, h4⟩

/-- A concrete instance of C6: two characters in a buffer of three. -/
theorem no_emission_below_capacity_witness :
    [(111 : CChar), 107].length < 3 ∧
    ∃ s, run 0 ([(111 : CChar), 107].map Call.sputc) (new 3 (fun _ => 0)) = some s ∧
      s.m_writer = [] ∧ s.unflushed = [111, 107] :=
  ⟨by decide, no_emission_below_capacity 3 (fun _ => 0) [111, 107] 0 (by decide)⟩

/-- C7. The cursor invariant: every sequence of `sputc`, `overflow` and
`sync` calls on a fresh buffer returns, and in the state it reaches
`pbase ≤ pptr ≤ epptr`, while `pbase` and `epptr` are the values set by the
constructor, the start of the backing array and the start plus `bufferSize`;
the array keeps its size. -/
theorem cursor_invariant (bufferSize : Nat) (uninit : Nat → CChar) (ops : List Call)
    (fuel : Nat) :
    ∃ s, run (fuel + 1) ops (new bufferSize uninit) = some s ∧
      s.pbase ≤ s.pptr ∧ s.pptr ≤ s.epptr ∧
      s.pbase = (new bufferSize uninit).pbase ∧ s.epptr = (new bufferSize uninit).epptr ∧
      (new bufferSize uninit).pbase = 0 ∧ (new bufferSize uninit).epptr = 0 + bufferSize ∧
      s.data.length = bufferSize := by
  obtain ⟨s, h1, ⟨k0, k1, k2⟩, _, h4⟩ := run_step fuel ops _ (inv_new bufferSize uninit)
  have hd : (new bufferSize uninit).data.length = bufferSize := by simp [new, setp]
  have he : (new bufferSize uninit).epptr = 0 + bufferSize := rfl
  have hb : (new bufferSize uninit).pbase = 0 := rfl
  refine ⟨s, h1, by omega, k1, by rw [hb, k0], ?_, hb, he, by rw [h4, hd]⟩
  rw [he, k2, h4, hd, Nat.zero_add]

/-! ### The stream factory: properties -/

theorem makeStream_nil (host : Host) :
    makeStream host [] = (.ok (.CoutStream { rdbuf := host.cout_rdbuf }), []) := by
  simp [makeStream, CoutStream_new]

theorem makeStream_debug (host : Host) :
    makeStream host debugName =
      (.ok (.DebugOutStream (StreamBufImpl.new 256 host.uninit)), []) := by
  simp [makeStream, debugName, DebugOutStream_new]

theorem makeStream_percent (host : Host) (filename : StringRef)
    (h0 : filename[0]? = some '%') (hne : filename ≠ debugName) :
    makeStream host filename =
      (.error { kind := .UnrecognisedStream,
                what := "Unrecognised stream: \x27".toList ++ filename ++ "\x27".toList }, []) := by
  have hnil : filename ≠ [] := by
    rintro rfl
    simp at h0
  simp [makeStream, hnil, h0, hne, CATCH_ERROR]

theorem makeStream_path (host : Host) (filename : StringRef)
    (hnil : filename ≠ []) (h0 : filename[0]? ≠ some '%') :
    makeStream host filename =
      (if host.open_ok filename then .ok (.FileStream { file := some filename, failbit := false })
       else .error { kind := .FileOpenError,
                     what := "Unable to open file: \x27".toList ++ filename ++ "\x27".toList },
       [filename]) := by
  by_cases hop : host.open_ok filename = true
  · simp [makeStream, hnil, h0, FileStream_new, ofstream.open, ofstream.fail, hop,
      CATCH_ENFORCE]
  · simp [makeStream, hnil, h0, FileStream_new, ofstream.open, ofstream.fail, hop,
      CATCH_ENFORCE, CATCH_ERROR, ofstream.default]

theorem debugName_head : debugName[0]? = some '%' := by
  decide

theorem infix_between (pre post mid : List Char) : mid <:+: pre ++ mid ++ post :=
  ⟨pre, post, rfl⟩

/-- C8. The classification made by the factory: the result is the
`CoutStream` variant exactly when the specifier is empty, the
`DebugOutStream` variant exactly when the specifier is `"%debug"`, and
`std::ofstream::open` is called, on the specifier and once, exactly when the
specifier is non-empty with a first character other than `%`; for the empty
specifier and for `"%debug"` the factory returns its variant and opens no file. -/
theorem makeStream_classification (host : Host) (filename : StringRef) :
    ((∃ m_os, (makeStream host filename).1 = .ok (.CoutStream m_os)) ↔ filename = []) ∧
    ((∃ buf, (makeStream host filename).1 = .ok (.DebugOutStream buf)) ↔
      filename = debugName) ∧
    ((makeStream host filename).2 = [filename] ↔
      (filename ≠ [] ∧ filename[0]? ≠ some '%')) ∧
    ((makeStream host filename).2 = [] ↔ ¬ (filename ≠ [] ∧ filename[0]? ≠ some '%')) ∧
    makeStream host [] = (.ok (.CoutStream { rdbuf := host.cout_rdbuf }), []) ∧
    makeStream host debugName =
      (.ok (.DebugOutStream (StreamBufImpl.new 256 host.uninit)), []) := by
  refine ⟨?_, ?_, ?_, ?_, makeStream_nil host, makeStream_debug host⟩
  all_goals
    by_cases hnil : filename = []
    · subst hnil
      rw [makeStream_nil]
      simp [debugName]
    · by_cases h0 : filename[0]? = some '%'
      · by_cases hd : filename = debugName
        · subst hd
          rw [makeStream_debug]
          simp [debugName]
        · rw [makeStream_percent host filename h0 hd]
          simp [hnil, h0, hd]
      · have hd : filename ≠ debugName := by
          rintro rfl
          exact h0 debugName_head
        rw [makeStream_path host filename hnil h0]
        by_cases hop : host.open_ok filename = true <;> simp [hnil, h0, hd, hop]

/-- C9. Unrecognised pseudo-destination: for every specifier whose first
character is `%` and which is not `"%debug"`, the factory fails with the
`UnrecognisedStream` error, returns no object, opens no file, and the message
is `Unrecognised stream: ` followed by the whole specifier between two
apostrophes, so it contains the specifier verbatim. -/
theorem makeStream_unrecognised (host : Host) (filename : StringRef)
    (h0 : filename[0]? = some '%') (hne : filename ≠ debugName) :
    ∃ e, makeStream host filename = (.error e, []) ∧ e.kind = .UnrecognisedStream ∧
      e.what = "Unrecognised stream: \x27".toList ++ filename ++ "\x27".toList ∧
      filename <:+: e.what := by
  refine ⟨_, makeStream_percent host filename h0 hne, rfl, rfl, ?_⟩
  exact infix_between _ _ _

/-- Concrete instances of C9: the specifiers `%unknown`, `%`, `%Debug` and `%debugx`. -/
theorem makeStream_unrecognised_witness :
    (∃ e, makeStream closedHost "%unknown".toList = (.error e, []) ∧
      e.kind = .UnrecognisedStream ∧
      e.what = "Unrecognised stream: \x27".toList ++ "%unknown".toList ++ "\x27".toList ∧
      "%unknown".toList <:+: e.what) ∧
    (∃ e, makeStream closedHost "%".toList = (.error e, []) ∧
      e.kind = .UnrecognisedStream ∧
      e.what = "Unrecognised stream: \x27".toList ++ "%".toList ++ "\x27".toList ∧
      "%".toList <:+: e.what) ∧
    (∃ e, makeStream closedHost "%Debug".toList = (.error e, []) ∧
      e.kind = .UnrecognisedStream ∧
      e.what = "Unrecognised stream: \x27".toList ++ "%Debug".toList ++ "\x27".toList ∧
      "%Debug".toList <:+: e.what) ∧
    (∃ e, makeStream closedHost "%debugx".toList = (.error e, []) ∧
      e.kind = .UnrecognisedStream ∧
      e.what = "Unrecognised stream: \x27".toList ++ "%debugx".toList ++ "\x27".toList ∧
      "%debugx".toList <:+: e.what) :=
  ⟨makeStream_unrecognised closedHost "%unknown".toList (by decide) (by decide),
    makeStream_unrecognised closedHost "%".toList (by decide) (by decide),
    makeStream_unrecognised closedHost "%Debug".toList (by decide) (by decide),
    makeStream_unrecognised closedHost "%debugx".toList (by decide) (by decide)⟩

/-- C10. File destination: for a non-empty specifier whose first character
is not `%` the factory calls `open` on it, fails exactly when the open
fails, then with the `FileOpenError` error, no object, and the message
`Unable to open file: ` followed by the path between two apostrophes, and
otherwise returns the `FileStream` variant whose stream has that file open.
Whenever the factory fails, it is in this case or in the unrecognised-stream
case. -/
theorem makeStream_file (host : Host) (filename : StringRef) :
    (filename ≠ [] → filename[0]? ≠ some '%' →
      (makeStream host filename).2 = [filename] ∧
      ((∃ e, (makeStream host filename).1 = .error e) ↔ host.open_ok filename = false) ∧
      (host.open_ok filename = false →
        ∃ e, (makeStream host filename).1 = .error e ∧ e.kind = .FileOpenError ∧
          e.what = "Unable to open file: \x27".toList ++ filename ++ "\x27".toList ∧
          filename <:+: e.what) ∧
      (host.open_ok filename = true →
        (makeStream host filename).1 =
          .ok (.FileStream { file := some filename, failbit := false }))) ∧
    (∀ e, (makeStream host filename).1 = .error e →
      (filename[0]? = some '%' ∧ filename ≠ debugName ∧ e.kind = .UnrecognisedStream) ∨
      (filename ≠ [] ∧ filename[0]? ≠ some '%' ∧ host.open_ok filename = false ∧
        e.kind = .FileOpenError)) := by
  constructor
  · intro hnil h0
    rw [makeStream_path host filename hnil h0]
    refine ⟨rfl, ?_, ?_, ?_⟩
    · by_cases hop : host.open_ok filename = true <;> simp [hop]
    · intro hop
      rw [if_neg (by simp [hop])]
      exact ⟨_, rfl, rfl, rfl, infix_between _ _ _⟩
    · intro hop
      simp [hop]
  · intro e he
    by_cases hnil : filename = []
    · subst hnil
      rw [makeStream_nil] at he
      simp at he
    · by_cases h0 : filename[0]? = some '%'
      · by_cases hd : filename = debugName
        · subst hd
          rw [makeStream_debug] at he
          simp at he
        · rw [makeStream_percent host filename h0 hd] at he
          simp at he
          exact Or.inl ⟨h0, hd, by rw [← he]⟩
      · rw [makeStream_path host filename hnil h0] at he
        by_cases hop : host.open_ok filename = true
        · simp [hop] at he
        · simp [hop] at he
          exact Or.inr ⟨hnil, h0, by simpa using hop, by rw [← he]⟩

/-- Concrete instances of C10: the path `out/log.txt` where no file can be
opened, and the path `log.txt` where every file can. -/
theorem makeStream_file_witness :
    ("out/log.txt".toList ≠ [] ∧ "out/log.txt".toList[0]? ≠ some '%' ∧
      closedHost.open_ok "out/log.txt".toList = false ∧
      ∃ e, (makeStream closedHost "out/log.txt".toList).1 = .error e ∧
        e.kind = .FileOpenError ∧
        e.what = "Unable to open file: \x27".toList ++ "out/log.txt".toList ++ "\x27".toList ∧
        "out/log.txt".toList <:+: e.what) ∧
    (openHost.open_ok "log.txt".toList = true ∧
      (makeStream openHost "log.txt".toList).1 =
        .ok (.FileStream { file := some "log.txt".toList, failbit := false })) :=
  ⟨⟨by decide, by decide, rfl,
      ((makeStream_file closedHost "out/log.txt".toList).1 (by decide) (by decide)).2.2.1 rfl⟩,
    rfl, ((makeStream_file openHost "log.txt".toList).1 (by decide) (by decide)).2.2.2 rfl⟩

/-- C11, as it fails for the lower-case wording: in a host where no path can
be opened the message for the path `out/log.txt` is
`Unable to open file: \x27out/log.txt\x27`, which does not contain the text
`unable to open file`. -/
theorem file_open_message_counterexample :
    (makeStream closedHost "out/log.txt".toList).1 =
      .error { kind := .FileOpenError,
               what := "Unable to open file: \x27out/log.txt\x27".toList } ∧
    ¬ ("unable to open file".toList <:+: "Unable to open file: \x27out/log.txt\x27".toList) := by
  refine ⟨rfl, ?_⟩
  decide

theorem lower_prefix :
    "Unable to open file: \x27".toList.map Char.toLower = "unable to open file: \x27".toList := by
  decide

/-- C11, amended. The wording of the message: for every path whose open
fails the factory fails with the message `Unable to open file: ` followed by
the filename between two apostrophes.  The message names the operation with
the text `Unable to open file`, contains the literal filename, and contains
the text `unable to open file` once its letters are put in lower case. -/
theorem file_open_message (host : Host) (filename : StringRef)
    (hnil : filename ≠ []) (h0 : filename[0]? ≠ some '%')
    (hop : host.open_ok filename = false) :
    ∃ e, (makeStream host filename).1 = .error e ∧
      e.what = "Unable to open file: \x27".toList ++ filename ++ "\x27".toList ∧
      "Unable to open file".toList <:+: e.what ∧
      filename <:+: e.what ∧
      "unable to open file".toList <:+: e.what.map Char.toLower := by
  rw [makeStream_path host filename hnil h0, if_neg (by simp [hop])]
  refine ⟨_, rfl, rfl, ?_, infix_between _ _ _, ?_⟩
  · exact ⟨[], ": \x27".toList ++ filename ++ "\x27".toList, by simp⟩
  · refine ⟨[], ": \x27".toList ++ filename.map Char.toLower ++ "\x27".toList.map Char.toLower, ?_⟩
    simp only [List.map_append, lower_prefix]
    simp

/-- A concrete instance of C11, amended: the path `out/log.txt` where no
file can be opened. -/
theorem file_open_message_witness :
    "out/log.txt".toList ≠ [] ∧ "out/log.txt".toList[0]? ≠ some '%' ∧
    closedHost.open_ok "out/log.txt".toList = false ∧
    ∃ e, (makeStream closedHost "out/log.txt".toList).1 = .error e ∧
      e.what = "Unable to open file: \x27".toList ++ "out/log.txt".toList ++ "\x27".toList ∧
      "Unable to open file".toList <:+: e.what ∧
      "out/log.txt".toList <:+: e.what ∧
      "unable to open file".toList <:+: e.what.map Char.toLower :=
  ⟨by decide, by decide, rfl,
    file_open_message closedHost "out/log.txt".toList (by decide) (by decide) rfl⟩

/-! ### The sink-backed buffer: return values, edge cases and chunking -/

theorem sync_result (s : StreamBufImpl) : (sync s).2 = 0 := by
  unfold sync; split <;> rfl

theorem overflow_result (fuel : Nat) (s s1 : StreamBufImpl) (c r : Int)
    (h : overflow fuel s c = some (s1, r)) : r = 0 := by
  cases fuel with
  | zero => simp [overflow] at h
  | succ n =>
    simp only [overflow] at h
    split at h
    · split at h
      · simp at h; exact h.2.symm
      · split at h
        · simp at h; exact h.2.symm
        · simp at h
    · simp at h; exact h.2.symm

/-- C12. Buffer operations never fail: `sync` returns `0` in every state; on
every well-formed state, the capacity-zero ones included, `overflow` returns
for every argument, `EOF` included, and its result is `0`, which is not
`EOF`; and in any state whatever a returning `overflow` returns `0`. -/
theorem buffer_operations_never_fail (fuel : Nat) (s : StreamBufImpl) (c : Int) (h : Inv s) :
    (sync s).2 = 0 ∧
    (∃ s1 r, overflow (fuel + 1) s c = some (s1, r) ∧ r = 0 ∧ r ≠ EOF) ∧
    (∃ s1 r, overflow (fuel + 1) s EOF = some (s1, r) ∧ r = 0 ∧ r ≠ EOF) ∧
    (∀ (n : Nat) (t t1 : StreamBufImpl) (d r : Int), overflow n t d = some (t1, r) → r = 0) := by
  refine ⟨?_, ⟨_, 0, overflow_of_inv fuel s c h, rfl, by decide⟩,
    ⟨_, 0, overflow_of_inv fuel s EOF h, rfl, by decide⟩,
    fun n t t1 d r hr => overflow_result n t t1 d r hr⟩
  unfold sync; split <;> rfl

/-- Concrete instances of C12: `overflow( EOF )` on the sample state and
`overflow( 65 )` on the sample state of capacity zero. -/
theorem buffer_operations_never_fail_witness :
    (Inv sample ∧ (sync sample).2 = 0 ∧
      ∃ s1 r, overflow 1 sample EOF = some (s1, r) ∧ r = 0 ∧ r ≠ EOF) ∧
    (Inv sampleZero ∧ (sync sampleZero).2 = 0 ∧
      ∃ s1 r, overflow 1 sampleZero 65 = some (s1, r) ∧ r = 0 ∧ r ≠ EOF) :=
  ⟨⟨by decide, (buffer_operations_never_fail 0 sample EOF (by decide)).1,
      (buffer_operations_never_fail 0 sample EOF (by decide)).2.1⟩,
    by decide, (buffer_operations_never_fail 0 sampleZero 65 (by decide)).1,
      (buffer_operations_never_fail 0 sampleZero 65 (by decide)).2.1⟩

/-- C13. The console variant binds once, at construction: the object made
for the empty specifier has a stream that writes to the stream buffer
`Catch::cout()` had when `makeStream` was called, and after a later
redirection of the standard-output stream to any buffer `sb` the stream of
that object still writes to the buffer bound at construction. -/
theorem console_binds_once (host : Host) (sb : Nat) :
    ∃ h, makeStream host [] = (.ok h, []) ∧
      h = .CoutStream { rdbuf := host.cout_rdbuf } ∧
      h.stream host = .host host.cout_rdbuf ∧
      (host.set_rdbuf sb).cout_rdbuf = sb ∧
      h.stream (host.set_rdbuf sb) = .host host.cout_rdbuf :=
  ⟨_, makeStream_nil host, rfl, rfl, rfl, rfl⟩

/-- C14. The initial state: right after construction the unflushed region is
empty, the write cursor is at the start of the array, the free space
`epptr - pptr` is the whole array of `bufferSize` characters, and the writer
has not been called; the buffer that `makeStream` builds for `"%debug"` is
such a fresh buffer with `256` characters of free space, and building it
opens no file. -/
theorem initial_state (bufferSize : Nat) (uninit : Nat → CChar) (host : Host) :
    (new bufferSize uninit).unflushed = [] ∧
    (new bufferSize uninit).pbase = 0 ∧ (new bufferSize uninit).pptr = 0 ∧
    (new bufferSize uninit).epptr - (new bufferSize uninit).pptr = bufferSize ∧
    (new bufferSize uninit).data.length = bufferSize ∧
    (new bufferSize uninit).m_writer = [] ∧
    makeStream host debugName = (.ok (.DebugOutStream (new 256 host.uninit)), []) ∧
    (new 256 host.uninit).epptr - (new 256 host.uninit).pptr = 256 ∧
    (new 256 host.uninit).m_writer = [] := by
  refine ⟨?_, rfl, rfl, ?_, ?_, rfl, makeStream_debug host, ?_, rfl⟩
  · simp [unflushed, string, new, setp]
  · simp [new, setp]
  · simp [new, setp]
  · simp [new, setp]

theorem overflow_zero_capacity (fuel : Nat) (s : StreamBufImpl) (c : Int) (h : Inv s)
    (hz : s.pbase = s.epptr) (hc : c ≠ EOF) :
    overflow (fuel + 1) s c = some (s.call_writer [static_cast_char c], 0) := by
  have hp : s.pbase = s.pptr := by
    obtain ⟨h0, h1, _⟩ := h
    omega
  rw [overflow_of_inv fuel s c h, sync_eq_of_eq s hp]
  simp [hc, hz]

theorem run_sputc_zero (fuel : Nat) (cs : List CChar) (s : StreamBufImpl) (h : Inv s)
    (hz : s.pbase = s.epptr) :
    run (fuel + 1) (cs.map Call.sputc) s =
      some { s with m_writer := s.m_writer ++ singletons cs } := by
  induction cs generalizing s with
  | nil => simp [run, singletons]
  | cons c cs ih =>
    have hfull : ¬ s.pptr < s.epptr := by
      obtain ⟨h0, h1, _⟩ := h
      omega
    have hstep : (Call.sputc c).apply (fuel + 1) s = some (s.call_writer [c]) := by
      simp [Call.apply, sputc_of_not_lt _ _ _ hfull,
        overflow_zero_capacity fuel s _ h hz (to_int_ne_EOF c), static_cast_to_int]
    simp only [List.map_cons, run, hstep]
    rw [ih (s.call_writer [c]) (inv_call_writer s [c] h) hz]
    simp [call_writer, singletons]

/-- C15. The zero-capacity edge case: on a well-formed state whose put area
is empty (`pbase = epptr`), `overflow( c )` with `c` other than `EOF` returns
`0` after calling the writer exactly once, with the one-character string of
`static_cast<char>( c )`, and leaves the pointers and so the empty unflushed
region as they were; hence any text written character by character to a
fresh buffer of capacity zero reaches the writer as one one-character string
per character, in order, nothing is unflushed and the destructor emits
nothing more. -/
theorem zero_capacity (fuel : Nat) (uninit : Nat → CChar) (cs : List CChar) :
    (∀ (s : StreamBufImpl) (c : Int), Inv s → s.pbase = s.epptr → c ≠ EOF →
      ∃ s1, overflow (fuel + 1) s c = some (s1, 0) ∧
        s1.m_writer = s.m_writer ++ [[static_cast_char c]] ∧
        s1.unflushed = [] ∧ s.unflushed = [] ∧
        s1.pbase = s.pbase ∧ s1.pptr = s.pptr ∧ s1.epptr = s.epptr ∧ s1.data = s.data) ∧
    (∃ t, run (fuel + 1) (cs.map Call.sputc) (new 0 uninit) = some t ∧
      t.m_writer = singletons cs ∧ t.unflushed = [] ∧ (destroy t).m_writer = singletons cs) := by
  constructor
  · intro s c h hz hc
    have hu : s.unflushed = [] := by
      obtain ⟨h0, h1, _⟩ := h
      have hp : s.pptr - s.pbase = 0 := by omega
      simp [unflushed, string, hp]
    exact ⟨_, overflow_zero_capacity fuel s c h hz hc, rfl, hu, hu, rfl, rfl, rfl, rfl⟩
  · refine ⟨_, run_sputc_zero fuel cs (new 0 uninit) (inv_new 0 uninit) rfl, ?_, ?_, ?_⟩
    · show (new 0 uninit).m_writer ++ singletons cs = singletons cs
      simp [new, setp]
    · simp [unflushed, string, new, setp]
    · rw [destroy, sync_eq_of_eq _ rfl]
      show (new 0 uninit).m_writer ++ singletons cs = singletons cs
      simp [new, setp]

/-- A concrete instance of C15: `overflow( 65 )` on the sample state of
capacity zero. -/
theorem zero_capacity_witness :
    Inv sampleZero ∧ sampleZero.pbase = sampleZero.epptr ∧ (65 : Int) ≠ EOF ∧
    ∃ s1, overflow 1 sampleZero 65 = some (s1, 0) ∧
      s1.m_writer = sampleZero.m_writer ++ [[static_cast_char 65]] ∧
      s1.unflushed = [] ∧ sampleZero.unflushed = [] ∧
      s1.pbase = sampleZero.pbase ∧ s1.pptr = sampleZero.pptr ∧
      s1.epptr = sampleZero.epptr ∧ s1.data = sampleZero.data :=
  ⟨by decide, by decide, by decide,
    (zero_capacity 0 (fun _ => 0) []).1 sampleZero 65 (by decide) (by decide) (by decide)⟩

/-- C18. `overflow` does not re-enter itself: on every state with
`pbase ≤ pptr ≤ epptr` the call returns `0` with a single activation allowed,
the writer receives at most one string during the call, and whenever
`overflow` reaches its `sputc`, after the flush, the write position is
available (`pptr < epptr`) and `sputc` stores the character without any
call of `overflow`. -/
theorem overflow_no_reentry (s : StreamBufImpl) (c : Int)
    (h1 : s.pbase ≤ s.pptr) (h2 : s.pptr ≤ s.epptr) :
    (∃ s1, overflow 1 s c = some (s1, 0) ∧
      s.m_writer <+: s1.m_writer ∧ s1.m_writer.length ≤ s.m_writer.length + 1) ∧
    (c ≠ EOF → (sync s).1.pbase ≠ (sync s).1.epptr →
      (sync s).1.pptr < (sync s).1.epptr ∧
      sputc 0 (sync s).1 (static_cast_char c) =
        some (stored (sync s).1 (static_cast_char c), to_int_type (static_cast_char c)) ∧
      overflow 1 s c = some (stored (sync s).1 (static_cast_char c), 0)) := by
  have hw : s.m_writer <+: (sync s).1.m_writer ∧
      (sync s).1.m_writer.length ≤ s.m_writer.length + 1 ∧
      (s.pbase ≠ s.pptr → (sync s).1.m_writer.length = s.m_writer.length + 1) ∧
      (s.pbase = s.pptr → (sync s).1.m_writer = s.m_writer) := by
    by_cases hp : s.pbase = s.pptr
    · rw [sync_eq_of_eq s hp]
      exact ⟨List.prefix_refl _, by omega, fun hn => absurd hp hn, fun _ => rfl⟩
    · rw [sync_eq_of_ne s hp]
      exact ⟨List.prefix_append _ _, by simp, fun _ => by simp, fun he => absurd he hp⟩
  have hstore : (sync s).1.pbase ≠ (sync s).1.epptr → (sync s).1.pptr < (sync s).1.epptr := by
    rw [sync_pbase, sync_epptr, sync_pptr]
    omega
  constructor
  · by_cases hc : c = EOF
    · exact ⟨(sync s).1, by simp [overflow, hc], hw.1, hw.2.1⟩
    · by_cases hz : (sync s).1.pbase = (sync s).1.epptr
      · refine ⟨(sync s).1.call_writer [static_cast_char c], by simp [overflow, hc, hz], ?_, ?_⟩
        · exact List.IsPrefix.trans hw.1 (List.prefix_append _ _)
        · have hp : s.pbase = s.pptr := by
            rw [sync_pbase, sync_epptr] at hz
            omega
          show ((sync s).1.m_writer ++ [[static_cast_char c]]).length ≤ _
          rw [hw.2.2.2 hp]
          simp
      · refine ⟨stored (sync s).1 (static_cast_char c), ?_, hw.1, hw.2.1⟩
        simp [overflow, hc, hz, sputc_virtual, hstore hz, stored]
  · intro hc hz
    refine ⟨hstore hz, sputc_of_lt 0 _ _ (hstore hz), ?_⟩
    simp [overflow, hc, hz, sputc_virtual, hstore hz, stored]

/-- A concrete instance of C18: `overflow( 65 )` on the sample state. -/
theorem overflow_no_reentry_witness :
    sample.pbase ≤ sample.pptr ∧ sample.pptr ≤ sample.epptr ∧
    ∃ s1, overflow 1 sample 65 = some (s1, 0) ∧
      sample.m_writer <+: s1.m_writer ∧ s1.m_writer.length ≤ sample.m_writer.length + 1 :=
  ⟨by decide, by decide, (overflow_no_reentry sample 65 (by decide) (by decide)).1⟩

/-- C19. Flush is idempotent: in every state a second `sync` right after a
first returns `0` and leaves the state, the writer included, as the first
left it; so the destructor run right after an explicit flush passes nothing
more to the writer. -/
theorem sync_idempotent (s : StreamBufImpl) :
    sync (sync s).1 = sync s ∧
    (sync (sync s).1).1 = (sync s).1 ∧
    (sync (sync s).1).1.m_writer = (sync s).1.m_writer ∧
    destroy (sync s).1 = (sync s).1 ∧
    (destroy (sync s).1).m_writer = (sync s).1.m_writer := by
  have hp : (sync s).1.pbase = (sync s).1.pptr := by
    rw [sync_pbase, sync_pptr]
  have h1 : (sync (sync s).1).1 = (sync s).1 := sync_eq_of_eq _ hp
  have h2 : (sync s).2 = 0 := sync_result s
  have h3 : (sync (sync s).1).2 = 0 := sync_result _
  refine ⟨?_, h1, by rw [h1], h1, by rw [destroy, h1]⟩
  exact Prod.ext h1 (by rw [h3, h2])

theorem length_unflushed (s : StreamBufImpl) (h : Inv s) : s.unflushed.length = s.pptr := by
  obtain ⟨h0, h1, h2⟩ := h
  simp only [unflushed, string, h0, List.drop_zero, Nat.sub_zero, List.length_take]
  omega

theorem sync_log (s : StreamBufImpl) :
    (s.pbase = s.pptr ∧ (sync s).1.m_writer = s.m_writer) ∨
    (s.pbase ≠ s.pptr ∧ (sync s).1.m_writer = s.m_writer ++ [s.unflushed]) := by
  by_cases hp : s.pbase = s.pptr
  · exact Or.inl ⟨hp, by rw [sync_eq_of_eq s hp]⟩
  · exact Or.inr ⟨hp, by rw [sync_eq_of_ne s hp]⟩

/-- What one call on a well-formed state adds to the writer log: nothing,
the non-empty unflushed region, or, at capacity zero, one character. -/
theorem apply_log (fuel : Nat) (s : StreamBufImpl) (op : Call) (h : Inv s) :
    ∃ s1, op.apply (fuel + 1) s = some s1 ∧ Inv s1 ∧ s1.epptr = s.epptr ∧
      (s1.m_writer = s.m_writer ∨
       (s.pptr ≠ 0 ∧ s1.m_writer = s.m_writer ++ [s.unflushed]) ∨
       (s.epptr = 0 ∧ ∃ c, s1.m_writer = s.m_writer ++ [[c]])) := by
  have h0 : s.pbase = 0 := h.1
  have hsync : (sync s).1.m_writer = s.m_writer ∨
      (s.pptr ≠ 0 ∧ (sync s).1.m_writer = s.m_writer ++ [s.unflushed]) := by
    rcases sync_log s with ⟨_, hm⟩ | ⟨hp, hm⟩
    · exact Or.inl hm
    · exact Or.inr ⟨by omega, hm⟩
  have hov : ∀ c : Int, ∃ s1, overflow (fuel + 1) s c = some (s1, 0) ∧ Inv s1 ∧
      s1.epptr = s.epptr ∧
      (s1.m_writer = s.m_writer ∨
       (s.pptr ≠ 0 ∧ s1.m_writer = s.m_writer ++ [s.unflushed]) ∨
       (s.epptr = 0 ∧ ∃ c, s1.m_writer = s.m_writer ++ [[c]])) := by
    intro c
    obtain ⟨s1, k1, k2, _, _⟩ := overflow_step fuel s c h
    refine ⟨s1, k1, k2, ?_, ?_⟩
    all_goals
      have k3 := overflow_of_inv fuel s c h
      rw [k1] at k3
      simp only [Option.some.injEq, Prod.mk.injEq, and_true] at k3
    · by_cases hc : c = EOF
      · simp only [hc, ne_eq, not_true_eq_false, if_false] at k3
        rw [k3, sync_epptr]
      · by_cases hz : s.pbase = s.epptr
        · simp only [hc, hz, ne_eq, not_false_eq_true, if_true] at k3
          rw [k3]
          show (sync s).1.epptr = _
          rw [sync_epptr]
        · simp only [hc, hz, ne_eq, not_false_eq_true, if_true, if_false] at k3
          rw [k3]
          show (sync s).1.epptr = _
          rw [sync_epptr]
    · by_cases hc : c = EOF
      · simp only [hc, ne_eq, not_true_eq_false, if_false] at k3
        rw [k3]
        rcases hsync with hm | hm
        · exact Or.inl hm
        · exact Or.inr (Or.inl hm)
      · by_cases hz : s.pbase = s.epptr
        · simp only [hc, hz, ne_eq, not_false_eq_true, if_true] at k3
          have hp : s.pbase = s.pptr := by
            have := h.2.1
            omega
          refine Or.inr (Or.inr ⟨by omega, static_cast_char c, ?_⟩)
          rw [k3]
          show (sync s).1.m_writer ++ _ = _
          rw [sync_eq_of_eq s hp]
        · simp only [hc, hz, ne_eq, not_false_eq_true, if_true, if_false] at k3
          rw [k3]
          show (sync s).1.m_writer = s.m_writer ∨ _
          rcases hsync with hm | hm
          · exact Or.inl hm
          · exact Or.inr (Or.inl hm)
  cases op with
  | sputc c =>
    by_cases hlt : s.pptr < s.epptr
    · exact ⟨stored s c, by simp [Call.apply, sputc_of_lt _ _ _ hlt], inv_stored s c h hlt,
        rfl, Or.inl rfl⟩
    · obtain ⟨s1, k1, k2, k3, k4⟩ := hov (to_int_type c)
      exact ⟨s1, by simp [Call.apply, sputc_of_not_lt _ _ _ hlt, k1], k2, k3, k4⟩
  | sync =>
    refine ⟨(sync s).1, rfl, inv_sync s h, sync_epptr s, ?_⟩
    rcases hsync with hm | hm
    · exact Or.inl hm
    · exact Or.inr (Or.inl hm)
  | overflow c =>
    obtain ⟨s1, k1, k2, k3, k4⟩ := hov c
    exact ⟨s1, by simp [Call.apply, k1], k2, k3, k4⟩

theorem apply_chunks (fuel : Nat) (s : StreamBufImpl) (op : Call) (h : Inv s)
    (hb : ∀ ch ∈ s.m_writer, 1 ≤ ch.length ∧ ch.length ≤ max s.epptr 1) :
    ∃ s1, op.apply (fuel + 1) s = some s1 ∧ Inv s1 ∧ s1.epptr = s.epptr ∧
      ∀ ch ∈ s1.m_writer, 1 ≤ ch.length ∧ ch.length ≤ max s1.epptr 1 := by
  obtain ⟨s1, k1, k2, k3, k4⟩ := apply_log fuel s op h
  refine ⟨s1, k1, k2, k3, ?_⟩
  have hu := length_unflushed s h
  have hle := h.2.1
  rw [k3]
  rcases k4 with hm | ⟨hp, hm⟩ | ⟨_, c, hm⟩
  · rw [hm]; exact hb
  · rw [hm]
    intro ch hch
    rcases List.mem_append.1 hch with hin | hin
    · exact hb ch hin
    · rw [List.mem_singleton.1 hin, hu]
      omega
  · rw [hm]
    intro ch hch
    rcases List.mem_append.1 hch with hin | hin
    · exact hb ch hin
    · rw [List.mem_singleton.1 hin]
      simp

theorem run_chunks (fuel : Nat) (ops : List Call) (s : StreamBufImpl) (h : Inv s)
    (hb : ∀ ch ∈ s.m_writer, 1 ≤ ch.length ∧ ch.length ≤ max s.epptr 1) :
    ∃ s1, run (fuel + 1) ops s = some s1 ∧ Inv s1 ∧ s1.epptr = s.epptr ∧
      ∀ ch ∈ s1.m_writer, 1 ≤ ch.length ∧ ch.length ≤ max s1.epptr 1 := by
  induction ops generalizing s with
  | nil => exact ⟨s, rfl, h, rfl, hb⟩
  | cons op ops ih =>
    obtain ⟨s1, k1, k2, k3, k4⟩ := apply_chunks fuel s op h hb
    obtain ⟨s2, j1, j2, j3, j4⟩ := ih s1 k2 k4
    exact ⟨s2, by simp [run, k1, j1], j2, by rw [j3, k3], j4⟩

/-- C17. Chunk size bounds: after any sequence of `sputc`, `sync` and
`overflow` calls on a fresh buffer of capacity `bufferSize`, followed by the
destructor, every string the writer has received, those received before the
destructor among them, is non-empty and has at most `max bufferSize 1`
characters. -/
theorem chunk_size_bounds (bufferSize : Nat) (uninit : Nat → CChar) (ops : List Call)
    (fuel : Nat) :
    ∃ s, run (fuel + 1) ops (new bufferSize uninit) = some s ∧
      s.m_writer <+: (destroy s).m_writer ∧
      ∀ ch ∈ (destroy s).m_writer,
        ch ≠ [] ∧ 1 ≤ ch.length ∧ ch.length ≤ max bufferSize 1 := by
  have hb0 : ∀ ch ∈ (new bufferSize uninit).m_writer,
      1 ≤ ch.length ∧ ch.length ≤ max (new bufferSize uninit).epptr 1 := by
    intro ch hch
    simp [new, setp] at hch
  obtain ⟨s, k1, k2, k3, k4⟩ := run_chunks fuel ops _ (inv_new bufferSize uninit) hb0
  have he : s.epptr = bufferSize := by
    rw [k3]; simp [new, setp]
  obtain ⟨s1, j1, _, j3, j4⟩ := apply_chunks fuel s Call.sync k2 k4
  have hd : s1 = destroy s := by
    simp only [Call.apply, Option.some.injEq] at j1
    rw [← j1, destroy]
  rw [hd] at j3 j4
  refine ⟨s, k1, ?_, ?_⟩
  · rw [destroy]
    rcases sync_log s with ⟨_, hm⟩ | ⟨_, hm⟩
    · rw [hm]
    · rw [hm]; exact List.prefix_append _ _
  · intro ch hch
    obtain ⟨b1, b2⟩ := j4 ch hch
    rw [j3, he] at b2
    refine ⟨?_, b1, b2⟩
    rintro rfl
    simp at b1

/-- Characters written one at a time to a buffer of capacity `C > 0` whose
log holds only chunks of `C` characters: the log keeps that form, and the
characters in the log and in the put area together grow by those written. -/
theorem run_sputc_chunking (C fuel : Nat) (hC : 0 < C) (cs : List CChar) (s : StreamBufImpl)
    (N : Nat) (h : Inv s) (he : s.epptr = C) (hall : ∀ ch ∈ s.m_writer, ch.length = C)
    (hN : s.m_writer.length * C + s.pptr = N) (hpos : 0 < N → 0 < s.pptr) :
    ∃ s1, run (fuel + 1) (cs.map Call.sputc) s = some s1 ∧ Inv s1 ∧ s1.epptr = C ∧
      (∀ ch ∈ s1.m_writer, ch.length = C) ∧
      s1.m_writer.length * C + s1.pptr = N + cs.length ∧
      (0 < N + cs.length → 0 < s1.pptr) := by
  induction cs generalizing s N with
  | nil => exact ⟨s, rfl, h, he, hall, hN, hpos⟩
  | cons c cs ih =>
    by_cases hlt : s.pptr < s.epptr
    · have hstep : (Call.sputc c).apply (fuel + 1) s = some (stored s c) := by
        simp [Call.apply, sputc_of_lt _ _ _ hlt]
      obtain ⟨s1, k1, k2, k3, k4, k5, k6⟩ :=
        ih (stored s c) (N + 1) (inv_stored s c h hlt) he hall
          (by show s.m_writer.length * C + (s.pptr + 1) = N + 1; omega)
          (fun _ => by show 0 < s.pptr + 1; omega)
      refine ⟨s1, by simp [run, hstep, k1], k2, k3, k4, ?_, ?_⟩
      · rw [k5, List.length_cons]; omega
      · intro _; apply k6; omega
    · have hfull : s.pptr = C := by
        have := h.2.1
        omega
      have h0 : s.pbase = 0 := h.1
      have hne : s.pbase ≠ s.pptr := by omega
      have hnz : s.pbase ≠ s.epptr := by omega
      have hs := inv_sync s h
      have hlt1 : (sync s).1.pptr < (sync s).1.epptr := by
        rw [sync_pptr, sync_epptr]; omega
      have hstep : (Call.sputc c).apply (fuel + 1) s = some (stored (sync s).1 c) := by
        simp [Call.apply, sputc_of_not_lt _ _ _ hlt, overflow_of_inv fuel s _ h,
          to_int_ne_EOF, hnz, static_cast_to_int]
      have hm : (stored (sync s).1 c).m_writer = s.m_writer ++ [s.unflushed] := by
        show (sync s).1.m_writer = _
        rw [sync_eq_of_ne s hne]
      have hp : (stored (sync s).1 c).pptr = 1 := by
        show (sync s).1.pptr + 1 = 1
        rw [sync_pptr, h0]
      obtain ⟨s1, k1, k2, k3, k4, k5, k6⟩ :=
        ih (stored (sync s).1 c) (N + 1) (inv_stored _ c hs hlt1)
          (by show (sync s).1.epptr = C; rw [sync_epptr, he])
          (by
            rw [hm]
            intro ch hch
            rcases List.mem_append.1 hch with hin | hin
            · exact hall ch hin
            · rw [List.mem_singleton.1 hin, length_unflushed s h, hfull])
          (by
            rw [hm, hp, List.length_append, List.length_singleton, Nat.add_mul, Nat.one_mul]
            omega)
          (fun _ => by rw [hp]; exact Nat.one_pos)
      refine ⟨s1, by simp [run, hstep, k1], k2, k3, k4, ?_, ?_⟩
      · rw [k5, List.length_cons]; omega
      · intro _; apply k6; omega

/-- C16. Chunking arithmetic: for every capacity `C > 0` and every text of
`N ≥ 1` characters written one at a time to a fresh buffer with no explicit
flush, the writer is called exactly `(N - 1) / C` times, every string it
receives has exactly `C` characters, and the unflushed region then holds
exactly `N - C * ((N - 1) / C)` characters, a number from `1` to `C`. -/
theorem chunking_arithmetic (C : Nat) (uninit : Nat → CChar) (cs : List CChar) (fuel : Nat)
    (hC : 0 < C) (hN : 1 ≤ cs.length) :
    ∃ s, run (fuel + 1) (cs.map Call.sputc) (new C uninit) = some s ∧
      s.m_writer.length = (cs.length - 1) / C ∧
      (∀ ch ∈ s.m_writer, ch.length = C) ∧
      s.unflushed.length = cs.length - C * ((cs.length - 1) / C) ∧
      1 ≤ s.unflushed.length ∧ s.unflushed.length ≤ C := by
  obtain ⟨s, k1, k2, k3, k4, k5, k6⟩ :=
    run_sputc_chunking C fuel hC cs (new C uninit) 0 (inv_new C uninit)
      (by simp [new, setp]) (by intro ch hch; simp [new, setp] at hch)
      (by simp [new, setp]) (fun h => absurd h (Nat.lt_irrefl 0))
  rw [Nat.zero_add] at k5 k6
  have hu := length_unflushed s k2
  have hp1 : 1 ≤ s.pptr := k6 (by omega)
  have hp2 : s.pptr ≤ C := by
    have := k2.2.1
    omega
  have hdiv : (cs.length - 1) / C = s.m_writer.length := by
    have hsplit : cs.length - 1 = (s.pptr - 1) + C * s.m_writer.length := by
      rw [Nat.mul_comm C]; omega
    rw [hsplit, Nat.add_mul_div_left _ _ hC, Nat.div_eq_of_lt (by omega), Nat.zero_add]
  refine ⟨s, k1, hdiv.symm, k4, ?_, by omega, by omega⟩
  rw [hu, hdiv, Nat.mul_comm C]
  omega

/-- A concrete instance of C16: five characters in a buffer of two. -/
theorem chunking_arithmetic_witness :
    0 < 2 ∧ 1 ≤ [(97 : CChar), 98, 99, 100, 101].length ∧
    ∃ s, run 1 ([(97 : CChar), 98, 99, 100, 101].map Call.sputc) (new 2 (fun _ => 0)) = some s ∧
      s.m_writer.length = ([(97 : CChar), 98, 99, 100, 101].length - 1) / 2 ∧
      (∀ ch ∈ s.m_writer, ch.length = 2) ∧
      s.unflushed.length =
        [(97 : CChar), 98, 99, 100, 101].length -
          2 * (([(97 : CChar), 98, 99, 100, 101].length - 1) / 2) ∧
      1 ≤ s.unflushed.length ∧ s.unflushed.length ≤ 2 :=
  ⟨by decide, by decide,
    chunking_arithmetic 2 (fun _ => 0) [97, 98, 99, 100, 101] 0 (by decide) (by decide)⟩

end Catch
